import Mathlib

/-!
Verification development for the gcloud-secrets CLI (scan/reconciliation core).

The JavaScript source is shallowly embedded over `String` / `List Char`.
JS strings are modelled as lists of characters; JS regular expressions used
by the source are deterministic (no backtracking is ever needed, as each
starred class is disjoint from the character that follows it), so each one
is embedded as an explicit maximal-munch matcher.
-/

/-- Character class of the JS `\s` regex class and of `String.prototype.trim`:
TAB, LF, VT, FF, CR, SP, NBSP, OGHAM SP, U+2000–U+200A, LS, PS, NNBSP,
MMSP, IDEOGRAPHIC SP, BOM. Expressed on code points. -/
def jsWs (c : Char) : Bool :=
  let n := c.toNat
  n == 9 || n == 10 || n == 11 || n == 12 || n == 13 || n == 32 ||
  n == 160 || n == 5760 || (8192 ≤ n && n ≤ 8202) || n == 8232 ||
  n == 8233 || n == 8239 || n == 8287 || n == 12288 || n == 65279

/-- JS LineTerminator set (after which a multiline `^` anchor matches):
LF, CR, LS, PS. -/
def isLineTerm (c : Char) : Bool :=
  let n := c.toNat
  n == 10 || n == 13 || n == 8232 || n == 8233

/-- First character of the identifier class `[A-Za-z_]`. -/
def identStartChar (c : Char) : Bool :=
  let n := c.toNat
  (65 ≤ n && n ≤ 90) || (97 ≤ n && n ≤ 122) || n == 95

/-- Identifier continuation class `[A-Za-z0-9_]`. -/
def identChar (c : Char) : Bool :=
  identStartChar c || (48 ≤ c.toNat && c.toNat ≤ 57)

/-- The backtick character (code point 96). -/
def btick : Char := Char.ofNat 96

/-- Lowercase ASCII letter, the class `[a-z]`. -/
def lowerAZ (c : Char) : Bool := 97 ≤ c.toNat && c.toNat ≤ 122

/-- `/^[a-z]+$/.test` on a character list: nonempty, all lowercase ASCII. -/
def isLowerAlphaL (l : List Char) : Bool := !l.isEmpty && l.all lowerAZ

/-- JS `String.prototype.startsWith` on the model. -/
def jsStartsWith (s p : String) : Bool := p.data.isPrefixOf s.data

/-- Split a character list at every occurrence of `sep`
(JS `String.prototype.split` with a one-character separator). -/
def splitChar (sep : Char) : List Char → List (List Char)
  | [] => [[]]
  | c :: rest =>
    if c == sep then [] :: splitChar sep rest
    else
      match splitChar sep rest with
      | l :: ls => (c :: l) :: ls
      | [] => [[c]]

/-- JS `Array.prototype.join` with a one-character separator. -/
def joinChar (sep : Char) : List (List Char) → List Char
  | [] => []
  | [x] => x
  | x :: xs => x ++ sep :: joinChar sep xs

/-- Drop the longest all-`jsWs` suffix (right half of `trim`). -/
def dropEndWs : List Char → List Char
  | [] => []
  | c :: t =>
    let r := dropEndWs t
    if r.isEmpty && jsWs c then [] else c :: r

/-- JS `String.prototype.trim` on a character list. -/
def trimL (l : List Char) : List Char := dropEndWs (l.dropWhile jsWs)

/-- JS `String.prototype.trim`. -/
def jsTrim (s : String) : String := String.mk (trimL s.data)

/-- `.replace(/\r\n/g, '\n')`: left-to-right, non-overlapping. -/
def replCRLF : List Char → List Char
  | '\r' :: '\n' :: rest => '\n' :: replCRLF rest
  | c :: rest => c :: replCRLF rest
  | [] => []

/-- String wrapper of `replCRLF`. -/
def replCRLFstr (s : String) : String := String.mk (replCRLF s.data)

/-! ## Name Codec (`makeSecretName`, `getKeyFromSecret`, `normalizeFolder`) -/

/-- Decoded secret name: `{ key, env }` as returned by `getKeyFromSecret`. -/
structure DecodedSecret where
  key : String
  env : Option String
deriving DecidableEq, Repr

/-- `makeSecretName(folder, key, env)`:
`folder_env_key` when `env` is truthy (present and nonempty), else
`folder_key`. -/
def makeSecretName (folder key : String) (env : Option String) : String :=
  match env with
  | some e => if e = "" then folder ++ "_" ++ key else folder ++ "_" ++ e ++ "_" ++ key
  | none => folder ++ "_" ++ key

/-- `getKeyFromSecret(secretName, folderName)`: strip the `folder_` prefix
(whole name is the key if absent); split the remainder on `_`; when there
are ≥ 2 parts and the first matches `/^[a-z]+$/`, that part is the
environment and the rest (re-joined with `_`) the key. -/
def getKeyFromSecret (secretName folderName : String) : DecodedSecret :=
  let pfx := folderName.data ++ ['_']
  if pfx.isPrefixOf secretName.data then
    let rest := secretName.data.drop pfx.length
    let parts := splitChar '_' rest
    if 2 ≤ parts.length ∧ isLowerAlphaL (parts.headD []) = true then
      ⟨String.mk (joinChar '_' parts.tail), some (String.mk (parts.headD []))⟩
    else ⟨String.mk rest, none⟩
  else ⟨secretName, none⟩

/-- One camelCase boundary pass of `.replace(/([a-z])([A-Z])/g, '$1-$2')`:
global, non-overlapping, scanning resumes after each matched pair. -/
def camelSplit : List Char → List Char
  | a :: b :: rest =>
    if lowerAZ a && (65 ≤ b.toNat && b.toNat ≤ 90) then
      a :: '-' :: b :: camelSplit rest
    else a :: camelSplit (b :: rest)
  | l => l

/-- Character class `[a-z0-9_-]` kept by `normalizeFolder`'s final replace. -/
def allowedChar (c : Char) : Bool :=
  let n := c.toNat
  (97 ≤ n && n ≤ 122) || (48 ≤ n && n ≤ 57) || n == 95 || n == 45

/-- `normalizeFolder(name)`: camelCase boundary pass, then `toLowerCase`
(modelled on the ASCII range via `Char.toLower`; the final per-character
replacement confines the output alphabet identically either way), then
`.replace(/[^a-z0-9_-]/g, '-')`. -/
def normalizeFolder (s : String) : String :=
  String.mk (((camelSplit s.data).map Char.toLower).map
    (fun c => if allowedChar c then c else '-'))

/-- `compareValues(a, b)`: trim both sides, normalize CRLF to LF on both
sides, then compare exactly. -/
def compareValues (a b : String) : Bool :=
  replCRLFstr (jsTrim a) == replCRLFstr (jsTrim b)

/-- Modelled from the spec's description of the same comparison ("after
trimming leading/trailing whitespace and normalizing CRLF to LF on both
sides"), as a normal form per side; used to state C4 as a refinement. -/
def specNormalize (s : String) : String := replCRLFstr (jsTrim s)

/-! ## Reconciler per-group classification (`runCli` scan branch) -/

/-- Classification of one (repo, file, environment) tuple. -/
inductive ScanStatus where
  | OK
  | DIFF
  | NEW
deriving DecidableEq, Repr

/-- A local `.env` entry `{ key, value }` as pushed by `parseEnvFile`. -/
structure EnvEntry where
  key : String
  value : String
deriving DecidableEq, Repr

/-- A remote secret of one folder+environment group: its short name (after
`secret.name.split('/').pop()`) and the result of the
`accessSecretVersion` call — `none` when that call threw (e.g. NotFound:
the secret has no version), which the source swallows. -/
structure RemoteSecret where
  name : String
  value : Option String
deriving DecidableEq, Repr

/-- JS `Set.prototype.add` on an insertion-ordered key list. -/
def addSetKey (keys : List String) (k : String) : List String :=
  if k ∈ keys then keys else keys ++ [k]

/-- JS `Map.prototype.set` on an insertion-ordered association list. -/
def mapSetVal (vals : List (String × String)) (k v : String) :
    List (String × String) :=
  if vals.any (fun p => p.1 == k) then
    vals.map (fun p => if p.1 == k then (k, v) else p)
  else vals ++ [(k, v)]

/-- JS `Map.prototype.get` (`none` models `undefined`). -/
def lookupVal (vals : List (String × String)) (k : String) : Option String :=
  (vals.find? (fun p => p.1 == k)).map (fun p => p.2)

/-- The remote-value fetch loop of the scan: for every secret of the group,
decode its key and add it to `remoteKeys`; on fetch success record the
value in `remoteValues`, on failure swallow the error. -/
def buildRemote (normalizedFolder : String) (folderSecrets : List RemoteSecret) :
    List String × List (String × String) :=
  folderSecrets.foldl
    (fun acc s =>
      let k := (getKeyFromSecret s.name normalizedFolder).key
      (addSetKey acc.1 k,
       match s.value with
       | some v => mapSetVal acc.2 k v
       | none => acc.2))
    ([], [])

/-- The scan's local-vs-remote comparison for one non-empty group: DIFF when
some local entry's key is missing from `remoteKeys` or its value differs
from `remoteValues.get(key) || ''`, or (checked second) some remote key has
no local entry; otherwise OK; an empty group is NEW. -/
def classifyGroup (normalizedFolder : String) (localEntries : List EnvEntry)
    (folderSecrets : List RemoteSecret) : ScanStatus :=
  if folderSecrets.isEmpty then ScanStatus.NEW
  else
    let r := buildRemote normalizedFolder folderSecrets
    let hasDiff :=
      localEntries.any (fun e =>
        !(r.1.contains e.key) ||
        !(compareValues e.value ((lookupVal r.2 e.key).getD ""))) ||
      r.1.any (fun k => !(localEntries.any (fun e => e.key == k)))
    if hasDiff then ScanStatus.DIFF else ScanStatus.OK

/-- Derived remote key multiset of a group, for stating classification. -/
def remoteKeysOf (normalizedFolder : String) (folderSecrets : List RemoteSecret) :
    List String :=
  folderSecrets.map (fun s => (getKeyFromSecret s.name normalizedFolder).key)

/-! ## Env-file parser (`parseEnvFile`) -/

/-- Maximal-munch matcher for the anchored body of
`/^\s*([A-Za-z_][A-Za-z0-9_]*)\s*=\s*`([\s\S]*?)`/` at one position:
returns `(key, value, match0, rest-of-input)` on success. Each starred
class is disjoint from its follower, so no backtracking exists. -/
def matchAtML (s : List Char) : Option (List Char × List Char × List Char × List Char) :=
  let ws1 := s.takeWhile jsWs
  match s.dropWhile jsWs with
  | [] => none
  | c :: t2 =>
    if identStartChar c then
      let idRest := t2.takeWhile identChar
      let t3 := t2.dropWhile identChar
      let ws2 := t3.takeWhile jsWs
      match t3.dropWhile jsWs with
      | '=' :: t5 =>
        let ws3 := t5.takeWhile jsWs
        match t5.dropWhile jsWs with
        | c6 :: t7 =>
          if c6 == btick then
            let v := t7.takeWhile (fun ch => !(ch == btick))
            match t7.dropWhile (fun ch => !(ch == btick)) with
            | _ :: t9 =>
              some (c :: idRest, v,
                ws1 ++ (c :: idRest) ++ ws2 ++ '=' :: ws3 ++ btick :: v ++ [btick],
                t9)
            | [] => none
          else none
        | [] => none
      | _ => none
    else none

/-- The `multilineRegex.exec` loop with `g`+`m` flags and `lastIndex`
semantics: attempt a match at every position that is the start of input or
follows a LineTerminator, resuming after each match. Fuel
`content.length + 1` strictly dominates the remaining input, so the fuel
never runs out on the wrapper's call. -/
def mlScan : Nat → Bool → List Char → List (List Char × List Char × List Char)
  | 0, _, _ => []
  | fuel + 1, atStart, s =>
    match (if atStart then matchAtML s else none) with
    | some (k, v, m0, rest) => (k, v, m0) :: mlScan fuel false rest
    | none =>
      match s with
      | [] => []
      | c :: rest => mlScan fuel (isLineTerm c) rest

/-- JS `String.prototype.replace` with a plain-string pattern and empty
replacement: removes the first occurrence only. -/
def replaceFirst (pat : List Char) : List Char → List Char
  | [] => []
  | c :: rest =>
    if pat.isPrefixOf (c :: rest) then (c :: rest).drop pat.length
    else c :: replaceFirst pat rest

/-- All multiline matches of `content`, in match order. -/
def mlMatches (content : String) : List (List Char × List Char × List Char) :=
  mlScan (content.data.length + 1) true content.data

/-- The working text after each matched span is removed
(`remaining = remaining.replace(match[0], '')`, once per match). -/
def mlRemaining (content : String) : List Char :=
  (mlMatches content).foldl (fun rem m => replaceFirst m.2.2 rem) content.data

/-- `.replace(/^["']|["']$/g, '')`: strip one leading quote character and
one trailing quote character, independently. -/
def stripQuotes (v : List Char) : List Char :=
  let isQ := fun c => c.toNat == 34 || c.toNat == 39
  let v1 := match v with
    | c :: rest => if isQ c then rest else c :: rest
    | [] => []
  if h : v1 = [] then v1
  else if isQ (v1.getLast h) then v1.dropLast else v1

/-- One iteration of the single-line scan: skip blank and comment lines,
then match `/^\s*([A-Za-z_][A-Za-z0-9_]*)\s*=\s*(.*)$/` (`$` only at end
of string, `.` excludes LineTerminators) and strip surrounding quotes. -/
def lineParse (line : List Char) : Option EnvEntry :=
  if (trimL line).isEmpty then none
  else if (trimL line).headD ' ' == '#' then none
  else
    match line.dropWhile jsWs with
    | [] => none
    | c :: t2 =>
      if identStartChar c then
        let idRest := t2.takeWhile identChar
        match (t2.dropWhile identChar).dropWhile jsWs with
        | '=' :: t5 =>
          let val := t5.dropWhile jsWs
          if val.all (fun ch => !(isLineTerm ch)) then
            some ⟨String.mk (c :: idRest), String.mk (stripQuotes val)⟩
          else none
        | _ => none
      else none

/-- `parseEnvFile(content)`: the multiline pass (entries in match order,
matched spans removed from the working text), then the line-by-line pass
over the working text split on `\n`. -/
def parseEnvFile (content : String) : List EnvEntry :=
  (mlMatches content).map (fun m => ⟨String.mk m.1, String.mk m.2.1⟩) ++
  (splitChar '\n' (mlRemaining content)).filterMap lineParse

/-! ## Repository discovery (`findGitRepositories`) -/

/-- A filesystem node as observed by `readdirSync(..., {withFileTypes})`
plus `lstatSync`: a directory with named entries, a plain file, or a
symbolic link. -/
inductive FsNode where
  | dir (entries : List (String × FsNode))
  | file
  | symlink

/-- `Dirent.isDirectory()`. -/
def isDirNode : FsNode → Bool
  | FsNode.dir _ => true
  | _ => false

/-- `lstatSync(...).isSymbolicLink()`. -/
def isSymlinkNode : FsNode → Bool
  | FsNode.symlink => true
  | _ => false

mutual
/-- `findGitRepositories(basePath, maxDepth, currentDepth)`: returns empty
as soon as `currentDepth > maxDepth`; otherwise scans the directory's
entries. Paths are modelled as segment lists; `dirname(join(base, '.git'))`
is `base`. -/
def findGitRepositories (basePath : List String) (fs : FsNode)
    (maxDepth currentDepth : Nat) : List (List String) :=
  if maxDepth < currentDepth then []
  else
    match fs with
    | FsNode.dir entries => findGitReposEntries basePath entries maxDepth currentDepth
    | _ => []

/-- The `for (const entry of entries)` body: skip non-directories, hidden
directories other than `.git`, `node_modules`, and symlinks; record the
parent on `.git`; otherwise recurse one level deeper. -/
def findGitReposEntries (basePath : List String)
    (entries : List (String × FsNode)) (maxDepth currentDepth : Nat) :
    List (List String) :=
  match entries with
  | [] => []
  | (name, node) :: rest =>
    (if !(isDirNode node) then []
     else if jsStartsWith name "." && !(name == ".git") then []
     else if name == "node_modules" then []
     else if isSymlinkNode node then []
     else if name == ".git" then [basePath]
     else findGitRepositories (basePath ++ [name]) node maxDepth (currentDepth + 1))
    ++ findGitReposEntries basePath rest maxDepth currentDepth
end

/-! ## Auxiliary predicates used in theorem statements -/

/-- Full-identifier test `[A-Za-z_][A-Za-z0-9_]*` on a whole list. -/
def isIdentL (l : List Char) : Bool :=
  match l with
  | [] => false
  | c :: t => identStartChar c && t.all identChar

/-- A line is blank or its trimmed form starts with `#`
(the skip condition of the single-line scan). -/
def blankOrComment (l : List Char) : Bool :=
  (trimL l).isEmpty || ((trimL l).headD ' ' == '#')

/-- CR, LS or PS: the LineTerminators other than LF. -/
def isCrLsPs (c : Char) : Bool :=
  c.toNat == 13 || c.toNat == 8232 || c.toNat == 8233

/-- The decode heuristic's trigger on a bare key: splitting on `_` yields
two or more parts whose first matches `/^[a-z]+$/`. -/
def envLikeHead (key : List Char) : Bool :=
  decide (2 ≤ (splitChar '_' key).length) &&
  isLowerAlphaL ((splitChar '_' key).headD [])

/-! ## Helper lemmas -/

theorem map_id_of_mem {α : Type} (f : α → α) (l : List α)
    (h : ∀ c ∈ l, f c = c) : l.map f = l := by
  induction l with
  | nil => rfl
  | cons a t ih =>
    simp only [List.map_cons, h a (by simp)]
    rw [ih (fun c hc => h c (by simp [hc]))]

theorem allowedChar_not_upper {c : Char} (h : allowedChar c = true) :
    (65 ≤ c.toNat && c.toNat ≤ 90) = false := by
  simp only [allowedChar, Bool.or_eq_true, Bool.and_eq_true, decide_eq_true_eq,
    beq_iff_eq] at h
  simp only [Bool.and_eq_false_iff, decide_eq_false_iff_not, not_le]
  omega

theorem camelSplit_eq_self {l : List Char}
    (h : ∀ c ∈ l, allowedChar c = true) : camelSplit l = l := by
  induction l using camelSplit.induct with
  | case1 a b rest hcond ih =>
    exact absurd hcond (by simp [allowedChar_not_upper (h b (by simp))])
  | case2 a b rest hcond ih =>
    simp only [camelSplit, if_neg hcond]
    rw [ih (fun c hc => h c (by simp at hc ⊢; tauto))]
  | case3 l hl =>
    rcases l with _ | ⟨a, _ | ⟨b, rest⟩⟩
    · rfl
    · rfl
    · exact (hl a b rest rfl).elim

theorem toLower_of_allowed {c : Char} (h : allowedChar c = true) :
    Char.toLower c = c := by
  simp only [allowedChar, Bool.or_eq_true, Bool.and_eq_true, decide_eq_true_eq,
    beq_iff_eq] at h
  simp only [Char.toLower]
  rw [if_neg]
  omega

theorem normalizeFolder_chars {s : String} :
    ∀ c ∈ (normalizeFolder s).data, allowedChar c = true := by
  intro c hc
  simp only [normalizeFolder] at hc
  rw [List.mem_map] at hc
  obtain ⟨b, _, rfl⟩ := hc
  by_cases hb : allowedChar b = true
  · simp [hb]
  · simp only [Bool.not_eq_true] at hb
    simp [hb]
    decide

/-- C9: `normalizeFolder` is idempotent:
`normalizeFolder(normalizeFolder(x)) == normalizeFolder(x)` for every
string `x`. -/
theorem normalizeFolder_idem (s : String) :
    normalizeFolder (normalizeFolder s) = normalizeFolder s := by
  apply String.ext
  have hall := @normalizeFolder_chars s
  show (((camelSplit (normalizeFolder s).data).map Char.toLower).map
      (fun c => if allowedChar c then c else '-')) = (normalizeFolder s).data
  rw [camelSplit_eq_self hall,
    map_id_of_mem _ _ (fun c hc => toLower_of_allowed (hall c hc)),
    map_id_of_mem _ _ (fun c hc => by simp [hall c hc])]

/-- C10: every character of `normalizeFolder`'s output lies in
`[a-z0-9_-]`; the output alphabet is closed. -/
theorem normalizeFolder_alphabet (s : String) :
    (normalizeFolder s).data.all allowedChar = true := by
  rw [List.all_eq_true]
  exact fun c hc => normalizeFolder_chars c hc

/-- C4: `compareValues` declares two strings equal exactly when they agree
after trimming and CRLF→LF normalization on both sides, and is otherwise
strict: `compareValues("x\r\n","x\n")` is true (also with interior CRLF
and surrounding blanks), while case differences are unequal. -/
theorem compareValues_spec :
    (∀ a b : String, (compareValues a b = true ↔ specNormalize a = specNormalize b)) ∧
    compareValues "x\r\n" "x\n" = true ∧
    compareValues " x\r\ny " "x\ny" = true ∧
    compareValues "x" "X" = false := by
  refine ⟨fun a b => ?_, by decide, by decide, by decide⟩
  simp [compareValues, specNormalize]

/-- C6: on the input ``FOO=`line1\nline2` `` the parser emits exactly one
entry, with key `FOO` and value `line1\nline2`, and it is produced by the
multiline pass: the matched span is removed from the working text, so the
single-line scan of the remaining text contributes no entry. -/
theorem parse_multiline_extraction :
    parseEnvFile "FOO=`line1\nline2`" = [⟨"FOO", "line1\nline2"⟩] ∧
    (mlMatches "FOO=`line1\nline2`").map
      (fun m => ((String.mk m.1 : String), (String.mk m.2.1 : String))) =
      [("FOO", "line1\nline2")] ∧
    (splitChar '\n' (mlRemaining "FOO=`line1\nline2`")).filterMap lineParse = [] := by
  refine ⟨by decide, by decide, by decide⟩

/-- C1 (counterexample): the round-trip claim fails as stated. The triple
(folder `proj`, key `KEY`, environment `prod2`) has a folder with no
underscore at all and an environment that is not all-lowercase-alphabetic
and collides with no key segment, yet decoding the canonical name yields
`{key: "prod2_KEY", env: null}`, not the original key and environment:
the decode heuristic drops any environment not matching `/^[a-z]+$/`. -/
theorem roundtrip_cex :
    getKeyFromSecret (makeSecretName "proj" "KEY" (some "prod2")) "proj" =
      ⟨"prod2_KEY", none⟩ ∧
    getKeyFromSecret (makeSecretName "proj" "KEY" (some "prod2")) "proj" ≠
      ⟨"KEY", some "prod2"⟩ := by
  refine ⟨by decide, by decide⟩

/-- C2 (counterexample): a swallowed fetch failure does not always surface
as DIFF. With the local entry `A=` (empty value, producible by the
parser) and a remote secret `proj_A` whose latest-value fetch failed,
the comparison runs against `remoteValues.get(key) || ''`, i.e. the empty
string, which the empty local value equals — the tuple is classified OK. -/
theorem fetch_notfound_cex :
    classifyGroup "proj" [⟨"A", ""⟩] [⟨"proj_A", none⟩] = ScanStatus.OK ∧
    parseEnvFile "A=" = [⟨"A", ""⟩] := by
  refine ⟨by decide, by decide⟩

/-- C5 (counterexample): an input that is a single line whose trimmed form
starts with `#` on which `parseEnvFile` is nonetheless non-empty. The
multiline regex's `m`-flag `^` anchor also matches after a carriage
return, so the embedded `\r` inside the comment line exposes a backtick
assignment to the multiline pass. -/
theorem parse_blank_comment_cex :
    (∀ l ∈ splitChar '\n' ("#a\rB=`v`" : String).data, blankOrComment l = true) ∧
    parseEnvFile "#a\rB=`v`" = [⟨"B", "v"⟩] := by
  refine ⟨by decide, by decide⟩

/-- C8: the depth bound of `findGitRepositories`: recursion returns empty
as soon as `currentDepth` exceeds `maxDepth`; at depth `maxDepth` a
directory's immediate children are still scanned (a `.git` child still
records the base); and with `maxDepth = 0` a tree whose only `.git`
directory lies two levels below the base yields the empty list. -/
theorem findGitRepositories_depth_bound :
    (∀ (base : List String) (fs : FsNode) (maxDepth currentDepth : Nat),
      maxDepth < currentDepth →
      findGitRepositories base fs maxDepth currentDepth = []) ∧
    (∀ (base : List String) (rest : List (String × FsNode)) (maxDepth : Nat),
      base ∈ findGitRepositories base
        (FsNode.dir ((".git", FsNode.dir []) :: rest)) maxDepth maxDepth) ∧
    findGitRepositories [] (FsNode.dir [("a", FsNode.dir [("b", FsNode.dir
      [(".git", FsNode.dir [])])])]) 0 0 = [] := by
  refine ⟨?_, ?_, by decide⟩
  · intro base fs maxDepth currentDepth h
    cases fs <;> (rw [findGitRepositories]; simp [h]) <;>
      exact fun e he => FsNode.noConfusion he
  · intro base rest maxDepth
    rw [findGitRepositories]
    rw [if_neg (by omega)]
    rw [findGitReposEntries]
    have h1 : (jsStartsWith ".git" "." && !(".git" == ".git")) = false := by decide
    have h2 : ((".git" : String) == "node_modules") = false := by decide
    simp [h1, h2, isDirNode, isSymlinkNode]

/-- C8 (witness): the depth-bound theorem applied at concrete inputs. -/
theorem findGitRepositories_depth_bound_witness :
    findGitRepositories ["x"] (FsNode.dir [("y", FsNode.dir [])]) 3 5 = [] ∧
    ["p"] ∈ findGitRepositories ["p"]
      (FsNode.dir [(".git", FsNode.dir []), ("z", FsNode.file)]) 2 2 := by
  exact ⟨findGitRepositories_depth_bound.1 ["x"] _ 3 5 (by decide),
    findGitRepositories_depth_bound.2.1 ["p"] [("z", FsNode.file)] 2⟩

theorem splitChar_ne_nil (sep : Char) (l : List Char) : splitChar sep l ≠ [] := by
  induction l with
  | nil => simp [splitChar]
  | cons c rest ih =>
    by_cases h : (c == sep) = true
    · simp [splitChar, h]
    · simp only [splitChar, h, Bool.false_eq_true, if_false]
      rcases he : splitChar sep rest with _ | ⟨l0, ls⟩
      · exact absurd he ih
      · simp

theorem splitChar_append (sep : Char) (xs ys : List Char) :
    splitChar sep (xs ++ sep :: ys) = splitChar sep xs ++ splitChar sep ys := by
  induction xs with
  | nil => simp [splitChar]
  | cons c xs ih =>
    by_cases h : (c == sep) = true
    · simp only [List.cons_append, splitChar, h, if_true, List.append_eq, ih]
    · simp only [List.cons_append, splitChar, h, Bool.false_eq_true, if_false,
        List.append_eq, ih]
      rcases he : splitChar sep xs with _ | ⟨l0, ls⟩
      · exact absurd he (splitChar_ne_nil sep xs)
      · simp [he]

theorem splitChar_of_not_mem {sep : Char} {l : List Char} (h : sep ∉ l) :
    splitChar sep l = [l] := by
  induction l with
  | nil => rfl
  | cons c rest ih =>
    have hc : (c == sep) = false := by
      simp only [beq_eq_false_iff_ne, ne_eq]
      intro he
      exact h (by simp [he])
    simp only [splitChar, hc, Bool.false_eq_true, if_false,
      ih (fun hm => h (by simp [hm]))]

theorem joinChar_splitChar (sep : Char) (l : List Char) :
    joinChar sep (splitChar sep l) = l := by
  induction l with
  | nil => rfl
  | cons c rest ih =>
    by_cases h : (c == sep) = true
    · simp only [splitChar, h, if_true]
      rcases he : splitChar sep rest with _ | ⟨l0, ls⟩
      · exact absurd he (splitChar_ne_nil sep rest)
      · rw [he] at ih
        have hc : c = sep := by simpa using h
        simp [joinChar, ih, hc]
    · simp only [splitChar, h, Bool.false_eq_true, if_false]
      rcases he : splitChar sep rest with _ | ⟨l0, ls⟩
      · exact absurd he (splitChar_ne_nil sep rest)
      · rw [he] at ih
        cases ls with
        | nil => simp only [joinChar] at ih ⊢; rw [ih]
        | cons l1 ls1 => simp only [joinChar] at ih ⊢; simp [ih]

theorem decode_strip (folder : String) (tail : List Char) :
    getKeyFromSecret (String.mk (folder.data ++ '_' :: tail)) folder =
      (if 2 ≤ (splitChar '_' tail).length ∧
          isLowerAlphaL ((splitChar '_' tail).headD []) = true then
        ⟨String.mk (joinChar '_' ((splitChar '_' tail).tail)),
         some (String.mk ((splitChar '_' tail).headD []))⟩
      else ⟨String.mk tail, none⟩) := by
  have hassoc : folder.data ++ '_' :: tail = (folder.data ++ ['_']) ++ tail := by
    simp
  have hpfx : (folder.data ++ ['_']).isPrefixOf ((folder.data ++ ['_']) ++ tail) = true := by
    rw [List.isPrefixOf_iff_prefix]
    exact List.prefix_append _ _
  simp only [getKeyFromSecret]
  rw [hassoc, if_pos hpfx, List.drop_left]

/-- C1 (amended): the round-trip holds for every folder, provided that
(i) when the environment is absent, the key does not itself look like an
environment-prefixed name (two or more `_`-separated parts with an
all-lowercase-alphabetic first part), and (ii) when the environment is
present, it is a nonempty string of lowercase ASCII letters. -/
theorem roundtrip_amended (folder key : String) (env : Option String)
    (h1 : env = none → envLikeHead key.data = false)
    (h2 : ∀ e, env = some e → isLowerAlphaL e.data = true) :
    getKeyFromSecret (makeSecretName folder key env) folder = ⟨key, env⟩ := by
  cases env with
  | none =>
    have hcond : ¬(2 ≤ (splitChar '_' key.data).length ∧
        isLowerAlphaL ((splitChar '_' key.data).headD []) = true) := by
      have h0 := h1 rfl
      simp only [envLikeHead, Bool.and_eq_false_iff, decide_eq_false_iff_not] at h0
      rcases h0 with h | h
      · exact fun hc => h hc.1
      · intro hc
        rw [hc.2] at h
        exact Bool.noConfusion h
    have hname : makeSecretName folder key none =
        String.mk (folder.data ++ '_' :: key.data) := by
      apply String.ext
      simp [makeSecretName]
    rw [hname, decode_strip, if_neg hcond]
  | some e =>
    have he := h2 e rfl
    have hne : ¬(e = "") := by
      intro h0
      rw [h0] at he
      exact absurd he (by decide)
    have hnomem : '_' ∉ e.data := by
      intro hm
      simp only [isLowerAlphaL, Bool.and_eq_true, List.all_eq_true] at he
      have h3 := he.2 '_' hm
      exact absurd h3 (by decide)
    have hname : makeSecretName folder key (some e) =
        String.mk (folder.data ++ '_' :: (e.data ++ '_' :: key.data)) := by
      apply String.ext
      simp [makeSecretName, hne]
    rw [hname, decode_strip, splitChar_append, splitChar_of_not_mem hnomem,
      List.singleton_append]
    have hlen : 2 ≤ (e.data :: splitChar '_' key.data).length := by
      have h4 := List.length_pos.mpr (splitChar_ne_nil '_' key.data)
      simp only [List.length_cons]
      omega
    rw [if_pos ⟨hlen, by simpa using he⟩]
    simp only [List.headD_cons, List.tail_cons, joinChar_splitChar]

/-- C1 (witness of the amended round-trip): concrete triples, one with and
one without an environment, both satisfying the amended side conditions. -/
theorem roundtrip_amended_witness :
    getKeyFromSecret (makeSecretName "proj" "API_KEY" (some "dev")) "proj" =
      ⟨"API_KEY", some "dev"⟩ ∧
    getKeyFromSecret (makeSecretName "proj" "MY_KEY" none) "proj" =
      ⟨"MY_KEY", none⟩ := by
  refine ⟨roundtrip_amended "proj" "API_KEY" (some "dev") ?_ ?_,
    roundtrip_amended "proj" "MY_KEY" none ?_ ?_⟩
  · intro h; cases h
  · intro e he; cases he; decide
  · intro _; decide
  · intro e he; cases he

theorem mem_addSetKey {keys : List String} {k k' : String} :
    k' ∈ addSetKey keys k ↔ k' ∈ keys ∨ k' = k := by
  by_cases h : k ∈ keys
  · simp only [addSetKey, if_pos h]
    constructor
    · exact Or.inl
    · rintro (hm | rfl)
      · exact hm
      · exact h
  · simp [addSetKey, if_neg h]

theorem lookupVal_cons (q : String × String) (t : List (String × String))
    (k : String) :
    lookupVal (q :: t) k =
      if (q.1 == k) = true then some q.2 else lookupVal t k := by
  cases hq : (q.1 == k) with
  | true =>
    rw [lookupVal, List.find?_cons_of_pos t hq]
    simp [hq]
  | false =>
    have hq' : ¬ ((fun p : String × String => p.1 == k) q = true) := by
      simp [hq]
    rw [lookupVal, List.find?_cons_of_neg t hq']
    simp [hq, lookupVal]

theorem lookup_map_self {k v : String} :
    ∀ (m : List (String × String)), m.any (fun p => p.1 == k) = true →
    lookupVal (m.map (fun p => if p.1 == k then (k, v) else p)) k = some v := by
  intro m hm
  induction m with
  | nil => simp at hm
  | cons p t ih =>
    cases hp : (p.1 == k) with
    | true =>
      simp only [List.map_cons, hp, if_true]
      rw [lookupVal_cons]
      have hc : (((k, v).1 == k) = true) := by simp
      rw [if_pos hc]
    | false =>
      have ht : t.any (fun p => p.1 == k) = true := by
        have h2 := hm
        rw [List.any_cons, hp, Bool.false_or] at h2
        exact h2
      simp only [List.map_cons, hp, Bool.false_eq_true, if_false]
      rw [lookupVal_cons]
      have hc : ¬ ((p.1 == k) = true) := by simp [hp]
      rw [if_neg hc]
      exact ih ht

theorem lookup_mapSetVal_self {m : List (String × String)} {k v : String} :
    lookupVal (mapSetVal m k v) k = some v := by
  by_cases h : m.any (fun p => p.1 == k) = true
  · rw [mapSetVal, if_pos h]
    exact lookup_map_self m h
  · rw [mapSetVal, if_neg h]
    rw [Bool.not_eq_true] at h
    have hgen : ∀ (l : List (String × String)), l.any (fun p => p.1 == k) = false →
        lookupVal (l ++ [(k, v)]) k = some v := by
      intro l
      induction l with
      | nil =>
        intro _
        rw [List.nil_append, lookupVal_cons]
        have hc : (((k, v).1 == k) = true) := by simp
        rw [if_pos hc]
      | cons p t ih =>
        intro hm
        rw [List.any_cons, Bool.or_eq_false_iff] at hm
        rw [List.cons_append, lookupVal_cons]
        have hc : ¬ ((p.1 == k) = true) := by simp [hm.1]
        rw [if_neg hc]
        exact ih hm.2
    exact hgen m h

theorem lookup_mapSetVal_ne {m : List (String × String)} {k k' v : String}
    (hne : k' ≠ k) :
    lookupVal (mapSetVal m k v) k' = lookupVal m k' := by
  have hbk : ¬ ((((k, v) : String × String).1 == k') = true) := by
    simp only [beq_iff_eq]
    exact fun h => hne h.symm
  by_cases h : m.any (fun p => p.1 == k) = true
  · rw [mapSetVal, if_pos h]
    clear h
    induction m with
    | nil => rfl
    | cons p t ih =>
      cases hp : (p.1 == k) with
      | true =>
        have hp' : ¬ ((p.1 == k') = true) := by
          simp only [beq_iff_eq]
          intro he
          rw [he] at hp
          simp only [beq_iff_eq] at hp
          exact hne hp
        simp only [List.map_cons, hp, if_true]
        rw [lookupVal_cons, lookupVal_cons, if_neg hbk, if_neg hp']
        exact ih
      | false =>
        simp only [List.map_cons, hp, Bool.false_eq_true, if_false]
        rw [lookupVal_cons, lookupVal_cons]
        by_cases hpk : ((p.1 == k') = true)
        · simp only [if_pos hpk]
        · simp only [if_neg hpk]
          exact ih
  · rw [mapSetVal, if_neg h]
    clear h
    induction m with
    | nil =>
      rw [List.nil_append, lookupVal_cons, if_neg hbk]
    | cons p t ih =>
      rw [List.cons_append, lookupVal_cons, lookupVal_cons, ih]

theorem buildRemote_keys (nf : String) (S : List RemoteSecret) :
    ∀ (acc : List String × List (String × String)) (k : String),
    (k ∈ (S.foldl (fun acc s =>
        (addSetKey acc.1 ((getKeyFromSecret s.name nf).key),
         match s.value with
         | some v => mapSetVal acc.2 ((getKeyFromSecret s.name nf).key) v
         | none => acc.2)) acc).1 ↔
      k ∈ acc.1 ∨ k ∈ remoteKeysOf nf S) := by
  induction S with
  | nil => simp [remoteKeysOf]
  | cons s S ih =>
    intro acc k
    rw [List.foldl_cons, ih]
    rw [mem_addSetKey]
    simp only [remoteKeysOf, List.map_cons, List.mem_cons]
    tauto

theorem buildRemote_vals_none (nf : String) (S : List RemoteSecret) :
    ∀ (acc : List String × List (String × String)) (k : String),
    (∀ s ∈ S, (getKeyFromSecret s.name nf).key = k → s.value = none) →
    lookupVal ((S.foldl (fun acc s =>
        (addSetKey acc.1 ((getKeyFromSecret s.name nf).key),
         match s.value with
         | some v => mapSetVal acc.2 ((getKeyFromSecret s.name nf).key) v
         | none => acc.2)) acc)).2 k = lookupVal acc.2 k := by
  induction S with
  | nil => intro acc k _; rfl
  | cons s S ih =>
    intro acc k hv
    rw [List.foldl_cons]
    rw [ih _ k (fun s' hs' => hv s' (List.mem_cons_of_mem s hs'))]
    rcases hval : s.value with _ | v
    · rfl
    · have hkne : k ≠ (getKeyFromSecret s.name nf).key := by
        intro heq
        have := hv s (List.mem_cons_self s S) heq.symm
        rw [hval] at this
        cases this
      exact lookup_mapSetVal_ne hkne

theorem buildRemote_vals_some (nf : String) (S : List RemoteSecret) :
    ∀ (acc : List String × List (String × String)),
    (∀ s ∈ S, s.value ≠ none) →
    (∀ k, k ∈ acc.1 → (lookupVal acc.2 k).isSome = true) →
    ∀ k, k ∈ (S.foldl (fun acc s =>
        (addSetKey acc.1 ((getKeyFromSecret s.name nf).key),
         match s.value with
         | some v => mapSetVal acc.2 ((getKeyFromSecret s.name nf).key) v
         | none => acc.2)) acc).1 →
      (lookupVal ((S.foldl (fun acc s =>
        (addSetKey acc.1 ((getKeyFromSecret s.name nf).key),
         match s.value with
         | some v => mapSetVal acc.2 ((getKeyFromSecret s.name nf).key) v
         | none => acc.2)) acc)).2 k).isSome = true := by
  induction S with
  | nil => intro acc _ hinv k hk; exact hinv k hk
  | cons s S ih =>
    intro acc hv hinv k hk
    rw [List.foldl_cons] at hk ⊢
    refine ih _ (fun s' hs' => hv s' (List.mem_cons_of_mem s hs')) ?_ k hk
    intro k' hk'
    rcases hval : s.value with _ | v
    · exact absurd hval (hv s (List.mem_cons_self s S))
    · simp only [hval]
      rw [mem_addSetKey] at hk'
      rcases hk' with hk' | rfl
      · by_cases hke : k' = (getKeyFromSecret s.name nf).key
        · rw [hke, lookup_mapSetVal_self]
          rfl
        · rw [lookup_mapSetVal_ne hke]
          exact hinv k' hk'
      · rw [lookup_mapSetVal_self]
        rfl

/-- C2 (amended): a fetch failure (e.g. NotFound) during the per-group
remote-value fetch never aborts the scan: the secret's decoded key is
still recorded in `remoteKeys`; the key is absent from `remoteValues`
whenever no same-key secret's fetch succeeded; and a local entry whose
key has no remote value is compared against the empty-string fallback, so
the tuple is classified DIFF whenever that entry's value does not
normalize to the empty string (the counterexample shows the remaining
case, an empty local value, is classified OK rather than DIFF). -/
theorem fetch_notfound_amended :
    (∀ (nf : String) (S : List RemoteSecret) (s : RemoteSecret), s ∈ S →
      (getKeyFromSecret s.name nf).key ∈ (buildRemote nf S).1) ∧
    (∀ (nf : String) (S : List RemoteSecret) (k : String),
      (∀ s ∈ S, (getKeyFromSecret s.name nf).key = k → s.value = none) →
      lookupVal (buildRemote nf S).2 k = none) ∧
    (∀ (nf : String) (L : List EnvEntry) (S : List RemoteSecret) (e : EnvEntry),
      S ≠ [] → e ∈ L → lookupVal (buildRemote nf S).2 e.key = none →
      compareValues e.value "" = false →
      classifyGroup nf L S = ScanStatus.DIFF) := by
  refine ⟨?_, ?_, ?_⟩
  · intro nf S s hs
    exact (buildRemote_keys nf S ([], []) ((getKeyFromSecret s.name nf).key)).mpr
      (Or.inr (List.mem_map_of_mem _ hs))
  · intro nf S k hv
    exact buildRemote_vals_none nf S ([], []) k hv
  · intro nf L S e hS he hlook hcmp
    have hSe : S.isEmpty = false := by
      cases S
      · exact absurd rfl hS
      · rfl
    have hpred : (!((buildRemote nf S).1.contains e.key) ||
        !(compareValues e.value ((lookupVal (buildRemote nf S).2 e.key).getD ""))) =
        true := by
      rw [hlook]
      simp [hcmp]
    have hany : (L.any fun x => !((buildRemote nf S).1.contains x.key) ||
        !(compareValues x.value ((lookupVal (buildRemote nf S).2 x.key).getD ""))) =
        true := by
      rw [List.any_eq_true]
      exact ⟨e, he, hpred⟩
    simp only [classifyGroup, hSe, Bool.false_eq_true, if_false, hany,
      Bool.true_or, if_true]

/-- C2 (witness): the amended theorem instantiated at the single remote
secret `proj_A` with a failed fetch and local entry `A=1`. -/
theorem fetch_notfound_amended_witness :
    (getKeyFromSecret "proj_A" "proj").key ∈
      (buildRemote "proj" [⟨"proj_A", none⟩]).1 ∧
    lookupVal (buildRemote "proj" [⟨"proj_A", none⟩]).2 "A" = none ∧
    classifyGroup "proj" [⟨"A", "1"⟩] [⟨"proj_A", none⟩] = ScanStatus.DIFF := by
  refine ⟨fetch_notfound_amended.1 "proj" [⟨"proj_A", none⟩] ⟨"proj_A", none⟩
      (by simp),
    fetch_notfound_amended.2.1 "proj" _ "A" (by decide),
    fetch_notfound_amended.2.2 "proj" _ _ ⟨"A", "1"⟩ (by simp) (by simp)
      (by decide) (by decide)⟩

/-- C3: with a non-empty remote group whose latest-value fetches all
succeeded, the tuple is classified DIFF if and only if some local entry's
key is absent from the group's decoded remote keys, or some local entry's
value is not `compareValues`-equivalent to the remote value recorded for
its key, or some remote key has no local entry with that key. -/
theorem scan_diff_iff (nf : String) (L : List EnvEntry) (S : List RemoteSecret)
    (hne : S ≠ []) (hv : ∀ s ∈ S, s.value ≠ none) :
    classifyGroup nf L S = ScanStatus.DIFF ↔
      ((∃ e ∈ L, e.key ∉ remoteKeysOf nf S) ∨
       (∃ e ∈ L, ∃ v, lookupVal (buildRemote nf S).2 e.key = some v ∧
         compareValues e.value v = false) ∨
       (∃ k ∈ remoteKeysOf nf S, ∀ e ∈ L, e.key ≠ k)) := by
  have hkeys : ∀ k, k ∈ (buildRemote nf S).1 ↔ k ∈ remoteKeysOf nf S := by
    intro k
    have h := buildRemote_keys nf S ([], []) k
    constructor
    · intro hk
      rcases h.mp hk with h0 | h0
      · exact absurd h0 (List.not_mem_nil k)
      · exact h0
    · intro hk
      exact h.mpr (Or.inr hk)
  have hsome : ∀ k, k ∈ (buildRemote nf S).1 →
      (lookupVal (buildRemote nf S).2 k).isSome = true := by
    intro k hk
    exact buildRemote_vals_some nf S ([], []) hv
      (fun k' hk' => absurd hk' (List.not_mem_nil k')) k hk
  have hSe : S.isEmpty = false := by
    cases S
    · exact absurd rfl hne
    · rfl
  have hif : ∀ b : Bool,
      ((if b = true then ScanStatus.DIFF else ScanStatus.OK) = ScanStatus.DIFF) ↔
        b = true := by
    intro b
    cases b <;> simp
  have h1 : (L.any fun e => !((buildRemote nf S).1.contains e.key) ||
      !(compareValues e.value ((lookupVal (buildRemote nf S).2 e.key).getD ""))) =
      true ↔
      ((∃ e ∈ L, e.key ∉ remoteKeysOf nf S) ∨
       (∃ e ∈ L, ∃ v, lookupVal (buildRemote nf S).2 e.key = some v ∧
         compareValues e.value v = false)) := by
    rw [List.any_eq_true]
    constructor
    · rintro ⟨e, he, hpe⟩
      simp only [Bool.or_eq_true, Bool.not_eq_true'] at hpe
      rcases hpe with hc | hc
      · left
        refine ⟨e, he, fun hm => ?_⟩
        have hmem : e.key ∈ (buildRemote nf S).1 := (hkeys e.key).mpr hm
        have hco : (buildRemote nf S).1.contains e.key = true :=
          List.elem_iff.mpr hmem
        rw [hc] at hco
        exact Bool.noConfusion hco
      · by_cases hm : e.key ∈ remoteKeysOf nf S
        · right
          have hs := hsome e.key ((hkeys e.key).mpr hm)
          rcases ho : lookupVal (buildRemote nf S).2 e.key with _ | v
          · rw [ho] at hs
            simp at hs
          · refine ⟨e, he, v, ho, ?_⟩
            rw [ho] at hc
            simpa using hc
        · left
          exact ⟨e, he, hm⟩
    · rintro (⟨e, he, hm⟩ | ⟨e, he, v, hlook, hcmp⟩)
      · refine ⟨e, he, ?_⟩
        have hc : (buildRemote nf S).1.contains e.key = false := by
          cases hcc : (buildRemote nf S).1.contains e.key
          · rfl
          · exact absurd ((hkeys e.key).mp (List.elem_iff.mp hcc)) hm
        simp only [Bool.or_eq_true, Bool.not_eq_true']
        left
        exact hc
      · refine ⟨e, he, ?_⟩
        rw [hlook]
        simp [hcmp]
  have h2 : ((buildRemote nf S).1.any fun k => !(L.any fun e => e.key == k)) =
      true ↔ (∃ k ∈ remoteKeysOf nf S, ∀ e ∈ L, e.key ≠ k) := by
    rw [List.any_eq_true]
    constructor
    · rintro ⟨k, hk, hpk⟩
      refine ⟨k, (hkeys k).mp hk, ?_⟩
      intro e heL heq
      simp only [Bool.not_eq_true', List.any_eq_false] at hpk
      have := hpk e heL
      rw [heq] at this
      simp at this
    · rintro ⟨k, hk, hall⟩
      refine ⟨k, (hkeys k).mpr hk, ?_⟩
      simp only [Bool.not_eq_true', List.any_eq_false]
      intro e heL
      simp only [beq_iff_eq]
      exact hall e heL
  simp only [classifyGroup, hSe, Bool.false_eq_true, if_false]
  rw [hif, Bool.or_eq_true, h1, h2, or_assoc]

/-- C3 (witness): local `{A=1}` against remote `{A=1, B=9}` is DIFF, via
the remote-only key `B`. -/
theorem scan_diff_iff_witness :
    classifyGroup "proj" [⟨"A", "1"⟩]
      [⟨"proj_A", some "1"⟩, ⟨"proj_B", some "9"⟩] = ScanStatus.DIFF := by
  have h := scan_diff_iff "proj" [⟨"A", "1"⟩]
    [⟨"proj_A", some "1"⟩, ⟨"proj_B", some "9"⟩] (by simp) (by decide)
  exact h.mpr (Or.inr (Or.inr ⟨"B", by decide, by decide⟩))

theorem dropWhile_append_ne_nil {p : Char → Bool} {a : List Char}
    (b : List Char) (h : a.dropWhile p ≠ []) :
    (a ++ b).dropWhile p = a.dropWhile p ++ b := by
  induction a with
  | nil => exact absurd rfl h
  | cons c t ih =>
    cases hc : p c with
    | true =>
      rw [List.dropWhile_cons_of_pos hc] at h
      rw [List.cons_append, List.dropWhile_cons_of_pos hc,
        List.dropWhile_cons_of_pos hc]
      exact ih h
    | false =>
      rw [List.cons_append, List.dropWhile_cons_of_neg (by simp [hc]),
        List.dropWhile_cons_of_neg (by simp [hc])]
      rfl

theorem dropWhile_append_all {p : Char → Bool} {a : List Char}
    (b : List Char) (h : ∀ c ∈ a, p c = true) :
    (a ++ b).dropWhile p = b.dropWhile p := by
  induction a with
  | nil => rfl
  | cons c t ih =>
    rw [List.cons_append, List.dropWhile_cons_of_pos (h c (by simp))]
    exact ih (fun c' hc' => h c' (by simp [hc']))

theorem dropEndWs_eq_nil_iff {l : List Char} :
    dropEndWs l = [] ↔ ∀ c ∈ l, jsWs c = true := by
  induction l with
  | nil => simp [dropEndWs]
  | cons c t ih =>
    simp only [dropEndWs, List.mem_cons]
    by_cases hr : dropEndWs t = []
    · cases hw : jsWs c with
      | true =>
        simp only [hr, List.isEmpty_nil, hw, Bool.and_self, if_true]
        constructor
        · intro _ c' hc'
          rcases hc' with rfl | hc'
          · exact hw
          · exact ih.mp hr c' hc'
        · intro _; trivial
      | false =>
        simp only [hr, List.isEmpty_nil, hw, Bool.and_false, if_false]
        constructor
        · intro h0; exact absurd h0 (by simp)
        · intro h0
          exact absurd (h0 c (Or.inl rfl)) (by simp [hw])
    · have : (dropEndWs t).isEmpty = false := by
        cases he : dropEndWs t
        · exact absurd he hr
        · rfl
      simp only [this, Bool.false_and, if_false]
      constructor
      · intro h0; exact absurd h0 (by simp)
      · intro h0
        exact absurd (ih.mpr (fun c' hc' => h0 c' (Or.inr hc'))) hr

theorem trimL_cons_not_ws {c : Char} {t : List Char} (h : jsWs c = false) :
    trimL (c :: t) = c :: dropEndWs t := by
  rw [trimL, List.dropWhile_cons_of_neg (by simp [h])]
  simp only [dropEndWs, h, Bool.and_false, Bool.false_eq_true, if_false]

theorem blankOrComment_good {l : List Char} (h : blankOrComment l = true) :
    l.dropWhile jsWs = [] ∨ (l.dropWhile jsWs).headD ' ' = '#' := by
  by_cases hnil : l.dropWhile jsWs = []
  · exact Or.inl hnil
  · right
    rcases hd : l.dropWhile jsWs with _ | ⟨c, t⟩
    · exact absurd hd hnil
    · have hcw : jsWs c = false := by
        have h0 := List.head?_dropWhile_not jsWs l
        rw [hd] at h0
        simpa using h0
      have htrim : trimL l = c :: dropEndWs t := by
        rw [trimL, hd]
        simp only [dropEndWs, hcw, Bool.and_false, Bool.false_eq_true, if_false]
      rw [blankOrComment, htrim] at h
      simp only [List.isEmpty_cons, Bool.false_or, List.headD_cons] at h
      simp only [List.headD_cons]
      simpa using h

theorem matchAtML_none_of_good {s : List Char}
    (h : s.dropWhile jsWs = [] ∨ (s.dropWhile jsWs).headD ' ' = '#') :
    matchAtML s = none := by
  unfold matchAtML
  rcases hd : s.dropWhile jsWs with _ | ⟨c, t2⟩
  · rfl
  · rcases h with h | h
    · rw [hd] at h; cases h
    · rw [hd] at h
      simp only [List.headD_cons] at h
      subst h
      have : identStartChar '#' = false := by decide
      simp [this]

theorem mem_of_dropWhile {p : Char → Bool} {l : List Char} {c : Char}
    (h : c ∈ l.dropWhile p) : c ∈ l :=
  (List.dropWhile_sublist p).subset h

theorem eq_lf_of_lineTerm {c : Char} (h1 : isLineTerm c = true)
    (h2 : isCrLsPs c = false) : c = '\n' := by
  have h10 : c.toNat = 10 := by
    unfold isLineTerm at h1
    unfold isCrLsPs at h2
    simp at h1 h2
    omega
  rw [← Char.ofNat_toNat c, h10]

theorem mlScan_nil_of_comment : ∀ (fuel : Nat) (b : Bool) (s : List Char),
    (b = true → (s.dropWhile jsWs = [] ∨ (s.dropWhile jsWs).headD ' ' = '#')) →
    (∀ pre t, s = pre ++ '\n' :: t →
      (t.dropWhile jsWs = [] ∨ (t.dropWhile jsWs).headD ' ' = '#')) →
    (∀ c ∈ s, isCrLsPs c = false) →
    mlScan fuel b s = [] := by
  intro fuel
  induction fuel with
  | zero => intro b s _ _ _; rfl
  | succ fuel ih =>
    intro b s hgood hnl hcr
    have hm : (if b then matchAtML s else none) = none := by
      cases b
      · rfl
      · simp only [if_true]
        exact matchAtML_none_of_good (hgood rfl)
    cases s with
    | nil => simp only [mlScan, hm]
    | cons c rest =>
      simp only [mlScan, hm]
      apply ih
      · intro hlt
        have hc10 : c = '\n' := eq_lf_of_lineTerm hlt (hcr c (by simp))
        exact hnl [] rest (by rw [hc10]; rfl)
      · intro pre t hpt
        exact hnl (c :: pre) t (by simp [hpt])
      · intro c' hc'
        exact hcr c' (by simp [hc'])

theorem goodFromLines : ∀ (n : Nat) (s : List Char), s.length ≤ n →
    (∀ l ∈ splitChar '\n' s, blankOrComment l = true) →
    (s.dropWhile jsWs = [] ∨ (s.dropWhile jsWs).headD ' ' = '#') := by
  intro n
  induction n with
  | zero =>
    intro s hlen hbc
    have hs : s = [] := by
      cases s
      · rfl
      · simp at hlen
    rw [hs]
    exact Or.inl rfl
  | succ n ih =>
    intro s hlen hbc
    by_cases hmem : '\n' ∈ s
    · have hdne : s.dropWhile (fun c => !(c == '\n')) ≠ [] := by
        intro h0
        rw [List.dropWhile_eq_nil_iff] at h0
        have h1 := h0 '\n' hmem
        simp at h1
      rcases hdd : s.dropWhile (fun c => !(c == '\n')) with _ | ⟨c0, s1⟩
      · exact absurd hdd hdne
      · have hc0 : c0 = '\n' := by
          have h0 := List.head?_dropWhile_not (fun c => !(c == '\n')) s
          rw [hdd] at h0
          simpa using h0
        subst hc0
        have hsplit : s = s.takeWhile (fun c => !(c == '\n')) ++ '\n' :: s1 := by
          rw [← hdd, List.takeWhile_append_dropWhile]
        have hl0nl : '\n' ∉ s.takeWhile (fun c => !(c == '\n')) := by
          intro hm
          have h0 := List.mem_takeWhile_imp hm
          simp at h0
        have hlines : splitChar '\n' s =
            [s.takeWhile (fun c => !(c == '\n'))] ++ splitChar '\n' s1 := by
          conv_lhs => rw [hsplit]
          rw [splitChar_append, splitChar_of_not_mem hl0nl]
        have hbc0 : blankOrComment (s.takeWhile (fun c => !(c == '\n'))) = true :=
          hbc _ (by rw [hlines]; simp)
        have hbc1 : ∀ l ∈ splitChar '\n' s1, blankOrComment l = true := by
          intro l hl
          exact hbc l (by rw [hlines]; simp [hl])
        have hlen1 : s1.length ≤ n := by
          have h0 := congrArg List.length hsplit
          simp only [List.length_append, List.length_cons] at h0
          omega
        rcases blankOrComment_good hbc0 with hg | hg
        · have hall : ∀ c ∈ s.takeWhile (fun c => !(c == '\n')), jsWs c = true := by
            rw [← List.dropWhile_eq_nil_iff]
            exact hg
          have hdw : s.dropWhile jsWs = s1.dropWhile jsWs := by
            conv_lhs => rw [hsplit]
            rw [dropWhile_append_all _ hall,
              List.dropWhile_cons_of_pos (by decide)]
          rw [hdw]
          exact ih s1 hlen1 hbc1
        · have hne2 : (s.takeWhile (fun c => !(c == '\n'))).dropWhile jsWs ≠ [] := by
            intro h0
            rw [h0] at hg
            exact absurd hg (by decide)
          have hdw : s.dropWhile jsWs =
              (s.takeWhile (fun c => !(c == '\n'))).dropWhile jsWs ++ '\n' :: s1 := by
            conv_lhs => rw [hsplit]
            exact dropWhile_append_ne_nil _ hne2
          right
          rw [hdw]
          rcases hx : (s.takeWhile (fun c => !(c == '\n'))).dropWhile jsWs
            with _ | ⟨ch, tt⟩
          · exact absurd hx hne2
          · rw [hx] at hg
            simpa using hg
    · have hsp : splitChar '\n' s = [s] := splitChar_of_not_mem hmem
      exact blankOrComment_good (hbc s (by rw [hsp]; simp))

theorem lineParse_none_of_bc {l : List Char} (h : blankOrComment l = true) :
    lineParse l = none := by
  rw [blankOrComment, Bool.or_eq_true] at h
  rcases h with h | h
  · rw [lineParse, if_pos h]
  · rw [lineParse]
    by_cases he : (trimL l).isEmpty = true
    · rw [if_pos he]
    · rw [if_neg he, if_pos h]

/-- C5 (amended): `parseEnvFile` is a total computable function of its
input, and on every input consisting only of blank lines and lines whose
trimmed form starts with `#` — provided the input contains no carriage
return and no U+2028/U+2029 (the LineTerminators other than LF, after
which the multiline anchor also matches) — it returns the empty list. -/
theorem parse_blank_comment_amended (content : String)
    (h1 : ∀ l ∈ splitChar '\n' content.data, blankOrComment l = true)
    (h2 : ∀ c ∈ content.data, isCrLsPs c = false) :
    parseEnvFile content = [] := by
  have hgood : content.data.dropWhile jsWs = [] ∨
      (content.data.dropWhile jsWs).headD ' ' = '#' :=
    goodFromLines content.data.length content.data (Nat.le_refl _) h1
  have hnl : ∀ pre t, content.data = pre ++ '\n' :: t →
      (t.dropWhile jsWs = [] ∨ (t.dropWhile jsWs).headD ' ' = '#') := by
    intro pre t hpt
    apply goodFromLines t.length t (Nat.le_refl _)
    intro l hl
    apply h1
    rw [hpt, splitChar_append]
    simp [hl]
  have hml : mlMatches content = [] := by
    rw [mlMatches]
    exact mlScan_nil_of_comment _ true content.data (fun _ => hgood) hnl h2
  rw [parseEnvFile, mlRemaining, hml]
  simp only [List.map_nil, List.foldl_nil, List.nil_append]
  rw [List.filterMap_eq_nil_iff]
  intro l hl
  exact lineParse_none_of_bc (h1 l hl)

/-- C5 (witness of the amended claim): a three-line blank/comment-only
input, free of CR/LS/PS, parses to the empty list. -/
theorem parse_blank_comment_amended_witness :
    parseEnvFile "# key A\n\n  # B=`x`" = [] :=
  parse_blank_comment_amended "# key A\n\n  # B=`x`" (by decide) (by decide)

theorem btick_of_matchAtML {s : List Char}
    {r : List Char × List Char × List Char × List Char}
    (h : matchAtML s = some r) : btick ∈ s := by
  simp only [matchAtML] at h
  split at h
  · cases h
  · split at h
    · split at h
      · split at h
        · split at h
          · split at h
            · cases h
              rename_i x3 c rest heq3 hid x2 t5 heq2 x1 hd1 t91 heq1 hbt x0 hd0
                t90 heq0
              have hb : hd1 = btick := by simpa using hbt
              have m1 : hd1 ∈ t5.dropWhile jsWs := by rw [heq1]; simp
              have m2 : hd1 ∈ t5 := mem_of_dropWhile m1
              have m3 : hd1 ∈ List.dropWhile jsWs (List.dropWhile identChar rest) := by
                rw [heq2]
                simp [m2]
              have m4 : hd1 ∈ List.dropWhile identChar rest := mem_of_dropWhile m3
              have m5 : hd1 ∈ rest := mem_of_dropWhile m4
              have m6 : hd1 ∈ s.dropWhile jsWs := by
                rw [heq3]
                simp [m5]
              have m7 : hd1 ∈ s := mem_of_dropWhile m6
              rw [← hb]
              exact m7
            · cases h
          · cases h
        · cases h
      · cases h
    · cases h

theorem matchAtML_none_of_no_btick {s : List Char}
    (h : ∀ ch ∈ s, ch ≠ btick) : matchAtML s = none := by
  cases hm : matchAtML s with
  | none => rfl
  | some r => exact absurd (btick_of_matchAtML hm) (fun hmem => h btick hmem rfl)

theorem mlScan_nil_of_no_btick : ∀ (fuel : Nat) (b : Bool) (s : List Char),
    (∀ ch ∈ s, ch ≠ btick) → mlScan fuel b s = [] := by
  intro fuel
  induction fuel with
  | zero => intro b s _; rfl
  | succ fuel ih =>
    intro b s h
    have hm : (if b then matchAtML s else none) = none := by
      cases b
      · rfl
      · simp only [if_true]
        exact matchAtML_none_of_no_btick h
    cases s with
    | nil => simp only [mlScan, hm]
    | cons c rest =>
      simp only [mlScan, hm]
      exact ih _ rest (fun ch hch => h ch (by simp [hch]))

theorem identStart_not_ws {c : Char} (h : identStartChar c = true) :
    jsWs c = false := by
  unfold identStartChar at h
  unfold jsWs
  simp at h ⊢
  omega

theorem identL_mem {l : List Char} (h : isIdentL l = true) :
    ∀ ch ∈ l, identChar ch = true := by
  rcases l with _ | ⟨c0, t⟩
  · intro ch hch
    simp at hch
  · simp only [isIdentL, Bool.and_eq_true, List.all_eq_true] at h
    intro ch hch
    rcases List.mem_cons.mp hch with rfl | hch
    · simp [identChar, h.1]
    · exact h.2 ch hch

theorem takeWhile_all_append {p : Char → Bool} {a : List Char} {y : Char}
    (b : List Char) (ha : ∀ ch ∈ a, p ch = true) (hy : p y = false) :
    (a ++ y :: b).takeWhile p = a ∧ (a ++ y :: b).dropWhile p = y :: b := by
  induction a with
  | nil =>
    constructor
    · rw [List.nil_append, List.takeWhile_cons_of_neg (by simp [hy])]
    · rw [List.nil_append, List.dropWhile_cons_of_neg (by simp [hy])]
  | cons c t ih =>
    have hc := ha c (by simp)
    have iht := ih (fun ch hch => ha ch (by simp [hch]))
    constructor
    · rw [List.cons_append, List.takeWhile_cons_of_pos hc, iht.1]
    · rw [List.cons_append, List.dropWhile_cons_of_pos hc]
      exact iht.2

theorem lineParse_assignment (k v : String) (hk : isIdentL k.data = true)
    (hv : ∀ ch ∈ v.data, isLineTerm ch = false) :
    lineParse (k.data ++ '=' :: v.data) =
      some ⟨k, String.mk (stripQuotes (v.data.dropWhile jsWs))⟩ := by
  rcases hkd : k.data with _ | ⟨c0, krest⟩
  · rw [hkd] at hk
    exact absurd hk (by decide)
  · have hks : identStartChar c0 = true ∧ ∀ ch ∈ krest, identChar ch = true := by
      rw [hkd] at hk
      simp only [isIdentL, Bool.and_eq_true, List.all_eq_true] at hk
      exact hk
    have hc0ws : jsWs c0 = false := identStart_not_ws hks.1
    have hhash : (c0 == '#') = false := by
      cases hb : (c0 == '#')
      · rfl
      · have h0 : c0 = '#' := by simpa using hb
        rw [h0] at hks
        exact absurd hks.1 (by decide)
    have e1 : trimL (c0 :: (krest ++ '=' :: v.data)) =
        c0 :: dropEndWs (krest ++ '=' :: v.data) := trimL_cons_not_ws hc0ws
    have e2 : List.dropWhile jsWs (c0 :: (krest ++ '=' :: v.data)) =
        c0 :: (krest ++ '=' :: v.data) :=
      List.dropWhile_cons_of_neg (by simp [hc0ws])
    have e3 := takeWhile_all_append (p := identChar) (y := '=') v.data hks.2
      (by decide)
    have e4 : List.dropWhile jsWs ('=' :: v.data) = '=' :: v.data :=
      List.dropWhile_cons_of_neg (by decide)
    have e5 : (v.data.dropWhile jsWs).all (fun ch => !(isLineTerm ch)) = true := by
      rw [List.all_eq_true]
      intro ch hch
      simp [hv ch (mem_of_dropWhile hch)]
    show lineParse (c0 :: (krest ++ '=' :: v.data)) =
      some ⟨k, String.mk (stripQuotes (v.data.dropWhile jsWs))⟩
    rw [lineParse, e1]
    simp only [List.isEmpty_cons, Bool.false_eq_true, if_false, List.headD_cons,
      hhash, e2, hks.1, if_true, e3.1, e3.2, e4, e5]
    rw [← hkd]

/-- C7: the parser does not deduplicate by key. Appending one more
assignment line `k=v` to any backtick-free text appends exactly one more
entry to the parse result, leaving every earlier entry (including ones
with the same key) unchanged: later entries never override or remove
earlier ones. -/
theorem parse_no_dedup (c k v : String)
    (hc : ∀ ch ∈ c.data, ch ≠ btick)
    (hk : isIdentL k.data = true)
    (hv : ∀ ch ∈ v.data, isLineTerm ch = false ∧ ch ≠ btick) :
    parseEnvFile (c ++ "\n" ++ k ++ "=" ++ v) =
      parseEnvFile c ++ [⟨k, String.mk (stripQuotes (v.data.dropWhile jsWs))⟩] := by
  have hdata : (c ++ "\n" ++ k ++ "=" ++ v).data =
      c.data ++ '\n' :: (k.data ++ '=' :: v.data) := by
    simp only [String.data_append]
    simp
  have hkmem : ∀ ch ∈ k.data, identChar ch = true := identL_mem hk
  have hnob : ∀ ch ∈ (c ++ "\n" ++ k ++ "=" ++ v).data, ch ≠ btick := by
    rw [hdata]
    intro ch hch
    simp only [List.mem_append, List.mem_cons] at hch
    rcases hch with h | h | h | h | h
    · exact hc ch h
    · subst h; decide
    · intro heq
      rw [heq] at h
      exact absurd (hkmem btick h) (by decide)
    · subst h; decide
    · exact (hv ch h).2
  have hnl2 : '\n' ∉ k.data ++ '=' :: v.data := by
    intro hm
    simp only [List.mem_append, List.mem_cons] at hm
    rcases hm with h | h | h
    · exact absurd (hkmem '\n' h) (by decide)
    · exact absurd h (by decide)
    · exact absurd (hv '\n' h).1 (by decide)
  have hml : mlMatches (c ++ "\n" ++ k ++ "=" ++ v) = [] := by
    rw [mlMatches]
    exact mlScan_nil_of_no_btick _ true _ hnob
  have hmlc : mlMatches c = [] := by
    rw [mlMatches]
    exact mlScan_nil_of_no_btick _ true _ hc
  rw [parseEnvFile, parseEnvFile, mlRemaining, mlRemaining, hml, hmlc]
  simp only [List.map_nil, List.foldl_nil, List.nil_append]
  rw [hdata, splitChar_append, splitChar_of_not_mem hnl2, List.filterMap_append]
  rw [show (splitChar '\n' c.data).filterMap lineParse ++
      ([k.data ++ '=' :: v.data] : List (List Char)).filterMap lineParse =
      (splitChar '\n' c.data).filterMap lineParse ++
      [⟨k, String.mk (stripQuotes (v.data.dropWhile jsWs))⟩] from ?_]
  have hlp := lineParse_assignment k v hk (fun ch hch => (hv ch hch).1)
  simp [hlp]

/-- C7 (witness): a duplicate-key file parses to two separate entries in
order; the second `FOO` does not override the first. -/
theorem parse_no_dedup_witness :
    parseEnvFile "FOO=1\nFOO=2" = [⟨"FOO", "1"⟩, ⟨"FOO", "2"⟩] := by
  have h := parse_no_dedup "FOO=1" "FOO" "2" (by decide) (by decide) (by decide)
  rw [show ("FOO=1" ++ "\n" ++ "FOO" ++ "=" ++ "2" : String) = "FOO=1\nFOO=2"
    from by decide] at h
  rw [h]
  decide
